import Mathlib

/-!
Shallow embedding of the pwrcell forecast core (forecast.py): period records,
merging of forecast sources into daily aggregates, and the charge planner.
Floating-point quantities are modelled as rationals; timezone-aware instants
(already normalized to the local zone by the source) as rational seconds on
the local clock; durations as rational seconds; the local calendar date of an
instant as the floor of the instant divided by one day of seconds. Python
exceptions are modelled with Except; the wall-clock instant read by the
planner is passed in explicitly.
-/

deriving instance DecidableEq for Except

namespace PwrCell

/-- Seconds in one hour (ONE_HOUR in the source). -/
def oneHourSeconds : ℚ := 3600

/-- Local calendar date of an instant, as a day index. -/
def dateOf (t : ℚ) : ℤ := ⌊t / 86400⌋

/-- Configuration flags read by the planner: battery_capacity (kWh),
inverter_capacity_dc (kW), target_max, min_reserve, charge_buffer (%). -/
structure Config where
  battery_capacity : ℚ
  inverter_capacity_dc : ℚ
  target_max : ℚ
  min_reserve : ℚ
  charge_buffer : ℚ
  deriving DecidableEq

/-- One forecast interval (class ForecastPeriod): period end instant, duration,
and the three confidence-band power estimates in kW. -/
structure ForecastPeriod where
  period_end : ℚ
  period : ℚ
  p10_kw : ℚ
  p50_kw : ℚ
  p90_kw : ℚ
  deriving DecidableEq

/-- Error raised by ForecastPeriod.merge when period_end or period differ
(the MergeConflict of the design). -/
inductive MergeError where
  | conflict
  deriving DecidableEq

/-- Arithmetic error reachable in the planner (Python ZeroDivisionError). -/
inductive PlanError where
  | divisionByZero
  deriving DecidableEq

/-- ForecastPeriod.merge: when the two records are equal the merge is skipped;
when period_end or period differ an exception is raised; otherwise the three
estimates are summed onto self. -/
def ForecastPeriod.merge (self other : ForecastPeriod) :
    Except MergeError ForecastPeriod :=
  if self = other then
    .ok self
  else if self.period_end ≠ other.period_end ∨ self.period ≠ other.period then
    .error .conflict
  else
    .ok { self with
          p10_kw := self.p10_kw + other.p10_kw
          p50_kw := self.p50_kw + other.p50_kw
          p90_kw := self.p90_kw + other.p90_kw }

/-- Python's two-argument max on rationals, written so that it evaluates by
kernel reduction; it agrees with the mathematical max (see pymax_eq_max). -/
def pymax (a b : ℚ) : ℚ := if a ≤ b then b else a

/-- The period's duration as a fraction of one hour (_hour_fraction). -/
def ForecastPeriod.hour_fraction (self : ForecastPeriod) : ℚ :=
  self.period / oneHourSeconds

/-- Expected p90 energy of the period (p90_kwh). -/
def ForecastPeriod.p90_kwh (self : ForecastPeriod) : ℚ :=
  self.p90_kw * self.hour_fraction

/-- Surplus energy above the inverter ceiling C (p90_excess_kwh). -/
def ForecastPeriod.p90_excess_kwh (self : ForecastPeriod) (C : ℚ) : ℚ :=
  pymax 0 (self.p90_kw - C) * self.hour_fraction

/-- Unused inverter headroom below the ceiling C (p90_avail_kwh). -/
def ForecastPeriod.p90_avail_kwh (self : ForecastPeriod) (C : ℚ) : ℚ :=
  pymax 0 (C - self.p90_kw) * self.hour_fraction

/-- Daily aggregate (class DailyForecast): a calendar date and the periods of
that date keyed by period end instant. The Python dict is modelled as an
insertion-ordered association list. -/
structure DailyForecast where
  period_date : ℤ
  periods : List (ℚ × ForecastPeriod)
  deriving DecidableEq

/-- Total expected p90 excess energy of the day (DailyForecast.p90_excess_kwh),
with the inverter ceiling C passed explicitly. -/
def DailyForecast.p90_excess_kwh (df : DailyForecast) (C : ℚ) : ℚ :=
  (df.periods.map (fun e => e.2.p90_excess_kwh C)).sum

/-- Lookup in an association list modelling a Python dict. -/
def assocFind {κ α : Type} [DecidableEq κ] (l : List (κ × α)) (k : κ) :
    Option α :=
  (l.find? (fun e => decide (e.1 = k))).map Prod.snd

/-- In-place value update of a Python dict entry: every entry with the given
key is replaced, positions and other entries unchanged. -/
def assocUpdate {κ α : Type} [DecidableEq κ] (l : List (κ × α)) (k : κ)
    (v : α) : List (κ × α) :=
  l.map (fun e => if e.1 = k then (k, v) else e)

/-- One step of merge_forecasts inside a daily aggregate:
df.periods.setdefault(fp.period_end, fp).merge(fp). When the key is present
the found record is merged with fp in place; when absent, fp is inserted and
then merged with itself (a no-op by the equality guard). -/
def DailyForecast.insertPeriod (df : DailyForecast) (fp : ForecastPeriod) :
    Except MergeError DailyForecast :=
  match assocFind df.periods fp.period_end with
  | some existing =>
    (existing.merge fp).map fun merged =>
      { df with periods := assocUpdate df.periods fp.period_end merged }
  | none =>
    (fp.merge fp).map fun merged =>
      { df with periods := df.periods ++ [(fp.period_end, merged)] }

/-- Folding one parsed forecast entry into the date-keyed result mapping of
merge_forecasts: the aggregate for the entry's local date is fetched or
created, then the entry is inserted into it. -/
def mergeEntry (result : List (ℤ × DailyForecast)) (fp : ForecastPeriod) :
    Except MergeError (List (ℤ × DailyForecast)) :=
  let d := dateOf fp.period_end
  match assocFind result d with
  | some df => (df.insertPeriod fp).map fun df2 => assocUpdate result d df2
  | none =>
    (DailyForecast.insertPeriod ⟨d, []⟩ fp).map fun df2 => result ++ [(d, df2)]

/-- Sequential left fold of mergeEntry over the parsed entries, with the
Python exception propagation of the nested loops in merge_forecasts. -/
def foldEntries :
    List (ℤ × DailyForecast) → List ForecastPeriod →
      Except MergeError (List (ℤ × DailyForecast))
  | m, [] => .ok m
  | m, fp :: rest =>
    match mergeEntry m fp with
    | .error e => .error e
    | .ok m2 => foldEntries m2 rest

/-- merge_forecasts: fold every entry of every forecast source, in order, into
a mapping from local calendar date to daily aggregate. An entry-level merge
conflict aborts the whole merge. -/
def merge_forecasts (forecasts : List (List ForecastPeriod)) :
    Except MergeError (List (ℤ × DailyForecast)) :=
  foldEntries [] forecasts.flatten

/-- Lookup of the period record stored for a period end instant, going
through the date bucket of that instant. -/
def lookupPeriod (m : List (ℤ × DailyForecast)) (k : ℚ) :
    Option ForecastPeriod :=
  match assocFind m (dateOf k) with
  | some df => assocFind df.periods k
  | none => none

/-- Well-formedness of one daily aggregate as built by the merger: unique
period keys, each stored record carrying its key as period end, and every
key's local date equal to the aggregate's date. -/
def WFDaily (df : DailyForecast) : Prop :=
  df.periods.Pairwise (fun a b => a.1 ≠ b.1) ∧
    ∀ e ∈ df.periods, e.2.period_end = e.1 ∧ dateOf e.1 = df.period_date

/-- Well-formedness of the date-keyed mapping built by the merger: unique
dates, each aggregate stored under its own date and internally
well-formed. -/
def WFMap (m : List (ℤ × DailyForecast)) : Prop :=
  m.Pairwise (fun a b => a.1 ≠ b.1) ∧
    ∀ e ∈ m, e.2.period_date = e.1 ∧ WFDaily e.2

/-- Plan result (class ForecastResult): total expected p90 excess and the four
optional outputs of the planner. -/
structure ForecastResult where
  expected_excess : ℚ
  discharge_start_time : Option ℚ
  discharge_target : Option ℚ
  target_reserve_time : Option ℚ
  clean_backup_time : Option ℚ
  deriving DecidableEq

/-- Excess as a percentage of battery capacity (step 3 of the planner). -/
def excessPct (cfg : Config) (excess_kwh : ℚ) : ℚ :=
  excess_kwh / cfg.battery_capacity * 100

/-- Target discharge floor (step 4 of the planner). -/
def targetDischargePct (cfg : Config) (excess_kwh : ℚ) : ℚ :=
  pymax cfg.min_reserve (cfg.target_max - excessPct cfg excess_kwh - cfg.charge_buffer)

/-- Energy to discharge to reach the floor from target_max (step 5). -/
def kwhToDischarge (cfg : Config) (excess_kwh : ℚ) : ℚ :=
  (cfg.target_max - targetDischargePct cfg excess_kwh) / 100 * cfg.battery_capacity

/-- Ordering used by the planner's sort: ascending period end instant
(key=lambda p: p.period_end). -/
def periodEndLE (a b : ForecastPeriod) : Prop := a.period_end ≤ b.period_end

instance : DecidableRel periodEndLE :=
  fun a b => inferInstanceAs (Decidable (a.period_end ≤ b.period_end))

instance : IsTotal ForecastPeriod periodEndLE :=
  ⟨fun a b => le_total a.period_end b.period_end⟩

instance : IsTrans ForecastPeriod periodEndLE :=
  ⟨fun _ _ _ hab hbc => le_trans hab hbc⟩

/-- The aggregate's period records sorted ascending by period end instant
(sorted(df.periods.values(), key=lambda p: p.period_end)); Python's sorted is
a stable sort, modelled here by a stable insertion sort. -/
def sortedPeriods (df : DailyForecast) : List ForecastPeriod :=
  List.insertionSort periodEndLE (df.periods.map Prod.snd)

/-- Continuation of the forward scan after the first excess period: the first
subsequent period whose excess equals zero marks the clean backup instant. -/
def findCleanBackup (C : ℚ) : List ForecastPeriod → Option ℚ
  | [] => none
  | fp :: rest =>
    if fp.p90_excess_kwh C = 0 then some fp.period_end else findCleanBackup C rest

/-- Forward scan of the planner: locate the first period with positive excess,
returning the periods strictly before it, its period end instant (the target
reserve time), and the clean backup instant found in the remainder. -/
def scanExcess (C : ℚ) :
    List ForecastPeriod → Option (List ForecastPeriod × ℚ × Option ℚ)
  | [] => none
  | fp :: rest =>
    if 0 < fp.p90_excess_kwh C then
      some ([], fp.period_end, findCleanBackup C rest)
    else
      match scanExcess C rest with
      | none => none
      | some (pre, rt, cb) => some (fp :: pre, rt, cb)

/-- Backward scan of the planner over the reversed periods before the excess
block: accumulate availability until it reaches the discharge threshold and
return that period's start instant (period_end - period). -/
def dischargeScan (C thresh : ℚ) : ℚ → List ForecastPeriod → Option ℚ
  | _, [] => none
  | acc, fp :: rest =>
    let acc2 := acc + fp.p90_avail_kwh C
    if thresh ≤ acc2 then some (fp.period_end - fp.period)
    else dischargeScan C thresh acc2 rest

/-- Sum of availability over a list of periods. -/
def totalAvail (C : ℚ) (l : List ForecastPeriod) : ℚ :=
  (l.map (fun fp => fp.p90_avail_kwh C)).sum

/-- get_charge_plan: the charge planner. The wall-clock instant now is a
parameter (the source reads it once per invocation); the Python
ZeroDivisionError on a zero battery capacity is modelled as an error value. -/
def get_charge_plan (cfg : Config) (now : ℚ) (df : DailyForecast) :
    Except PlanError ForecastResult :=
  let excess_kwh := df.p90_excess_kwh cfg.inverter_capacity_dc
  if excess_kwh = 0 then
    .ok ⟨0, none, none, none, none⟩
  else if cfg.battery_capacity = 0 then
    .error .divisionByZero
  else
    let target_discharge_pct := targetDischargePct cfg excess_kwh
    let kwh_to_discharge := kwhToDischarge cfg excess_kwh
    match scanExcess cfg.inverter_capacity_dc (sortedPeriods df) with
    | none =>
      .ok ⟨excess_kwh, none, some target_discharge_pct, none, none⟩
    | some (pre, target_reserve_time, clean_backup_time) =>
      let ds0 := dischargeScan cfg.inverter_capacity_dc kwh_to_discharge 0 pre.reverse
      let discharge_start_time :=
        match ds0 with
        | some t => if t < now then some (now + 300) else some t
        | none => none
      .ok ⟨excess_kwh, discharge_start_time, some target_discharge_pct,
           some target_reserve_time, clean_backup_time⟩

/-! Helper lemmas. -/

/-- pymax agrees with the mathematical binary max. -/
theorem pymax_eq_max (a b : ℚ) : pymax a b = max a b := by
  unfold pymax
  by_cases h : a ≤ b
  · rw [if_pos h, max_eq_right h]
  · rw [if_neg h, max_eq_left (le_of_not_le h)]

/-- Evaluation of assocFind on the empty list. -/
theorem assocFind_nil {κ α : Type} [DecidableEq κ] (k : κ) :
    assocFind ([] : List (κ × α)) k = none := rfl

/-- Evaluation of assocFind on a cons cell. -/
theorem assocFind_cons {κ α : Type} [DecidableEq κ] (e : κ × α)
    (l : List (κ × α)) (k : κ) :
    assocFind (e :: l) k = if e.1 = k then some e.2 else assocFind l k := by
  by_cases h : e.1 = k
  · simp [assocFind, List.find?, h]
  · simp [assocFind, List.find?, h]

/-- A found value comes from a member entry with the searched key. -/
theorem assocFind_eq_some_mem {κ α : Type} [DecidableEq κ]
    (l : List (κ × α)) (k : κ) (v : α) (h : assocFind l k = some v) :
    (k, v) ∈ l := by
  induction l with
  | nil => cases h
  | cons e rest ih =>
    rw [assocFind_cons] at h
    by_cases he : e.1 = k
    · rw [if_pos he, Option.some.injEq] at h
      have hkv : (k, v) = e := by rw [← he, ← h]
      rw [hkv]
      exact List.mem_cons_self e rest
    · rw [if_neg he] at h
      exact List.mem_cons_of_mem e (ih h)

/-- A lookup misses exactly when no entry carries the key. -/
theorem assocFind_eq_none_iff {κ α : Type} [DecidableEq κ]
    (l : List (κ × α)) (k : κ) :
    assocFind l k = none ↔ ∀ e ∈ l, e.1 ≠ k := by
  induction l with
  | nil => simp [assocFind_nil]
  | cons e rest ih =>
    rw [assocFind_cons]
    by_cases he : e.1 = k
    · simp [he]
    · simp [he, ih]

/-- Updating one key preserves lookups at any other key. -/
theorem assocFind_update_ne {κ α : Type} [DecidableEq κ]
    (l : List (κ × α)) (k k2 : κ) (v : α) (h : k2 ≠ k) :
    assocFind (assocUpdate l k v) k2 = assocFind l k2 := by
  induction l with
  | nil => rfl
  | cons e rest ih =>
    simp only [assocUpdate, List.map_cons] at ih ⊢
    rw [assocFind_cons, assocFind_cons]
    by_cases he : e.1 = k
    · have h2 : ¬ k = k2 := fun hh => h hh.symm
      simp [he, h2, ih]
    · simp [he, ih]

/-- Updating a present key makes the lookup return the new value. -/
theorem assocFind_update_self {κ α : Type} [DecidableEq κ]
    (l : List (κ × α)) (k : κ) (v v0 : α) (h : assocFind l k = some v0) :
    assocFind (assocUpdate l k v) k = some v := by
  induction l with
  | nil => cases h
  | cons e rest ih =>
    rw [assocFind_cons] at h
    simp only [assocUpdate, List.map_cons] at ih ⊢
    rw [assocFind_cons]
    by_cases he : e.1 = k
    · simp [he]
    · rw [if_neg he] at h
      simp [he, ih h]

/-- Appending cannot affect a key found on the left. -/
theorem assocFind_append_some {κ α : Type} [DecidableEq κ]
    (l1 l2 : List (κ × α)) (k : κ) (v : α) (h : assocFind l1 k = some v) :
    assocFind (l1 ++ l2) k = some v := by
  induction l1 with
  | nil => cases h
  | cons e rest ih =>
    rw [assocFind_cons] at h
    rw [List.cons_append, assocFind_cons]
    by_cases he : e.1 = k
    · rw [if_pos he] at h
      rw [if_pos he]
      exact h
    · rw [if_neg he] at h
      rw [if_neg he]
      exact ih h

/-- A key absent on the left is looked up on the right of an append. -/
theorem assocFind_append_none {κ α : Type} [DecidableEq κ]
    (l1 l2 : List (κ × α)) (k : κ) (h : assocFind l1 k = none) :
    assocFind (l1 ++ l2) k = assocFind l2 k := by
  induction l1 with
  | nil => rfl
  | cons e rest ih =>
    rw [assocFind_cons] at h
    rw [List.cons_append, assocFind_cons]
    by_cases he : e.1 = k
    · rw [if_pos he] at h
      cases h
    · rw [if_neg he] at h
      rw [if_neg he]
      exact ih h

/-- Updating a key that no entry carries changes nothing. -/
theorem assocUpdate_of_forall_ne {κ α : Type} [DecidableEq κ]
    (l : List (κ × α)) (k : κ) (v : α) (h : ∀ e ∈ l, e.1 ≠ k) :
    assocUpdate l k v = l := by
  induction l with
  | nil => rfl
  | cons e rest ih =>
    simp only [assocUpdate, List.map_cons] at ih ⊢
    rw [if_neg (h e (List.mem_cons_self e rest))]
    simp only [List.cons.injEq, true_and]
    exact ih fun g hg => h g (List.mem_cons_of_mem e hg)

/-- Under unique keys, re-storing the value already present is the
identity. -/
theorem assocUpdate_eq_self {κ α : Type} [DecidableEq κ]
    (l : List (κ × α)) (k : κ) (v : α)
    (hp : l.Pairwise (fun a b => a.1 ≠ b.1)) (h : assocFind l k = some v) :
    assocUpdate l k v = l := by
  induction l with
  | nil => rfl
  | cons e rest ih =>
    rw [assocFind_cons] at h
    rw [List.pairwise_cons] at hp
    simp only [assocUpdate, List.map_cons] at ih ⊢
    by_cases he : e.1 = k
    · rw [if_pos he, Option.some.injEq] at h
      rw [if_pos he]
      have hrest : ∀ g ∈ rest, g.1 ≠ k :=
        fun g hg hh => (hp.1 g hg) (he.trans hh.symm)
      have hid := assocUpdate_of_forall_ne rest k v hrest
      simp only [assocUpdate] at hid
      rw [hid]
      have hkv : (k, v) = e := by rw [← he, ← h]
      rw [hkv]
    · rw [if_neg he] at h
      rw [if_neg he]
      simp only [List.cons.injEq, true_and]
      exact ih hp.2 h

/-- Updating preserves pairwise-distinct keys. -/
theorem assocUpdate_pairwise_ne {κ α : Type} [DecidableEq κ]
    (l : List (κ × α)) (k : κ) (v : α)
    (hp : l.Pairwise (fun a b => a.1 ≠ b.1)) :
    (assocUpdate l k v).Pairwise (fun a b => a.1 ≠ b.1) := by
  have hfst : ∀ e : κ × α, ((if e.1 = k then (k, v) else e) : κ × α).1 = e.1 := by
    intro e
    by_cases he : e.1 = k
    · rw [if_pos he]
      exact he.symm
    · rw [if_neg he]
  rw [assocUpdate, List.pairwise_map]
  exact hp.imp fun {a b} hab => by rw [hfst a, hfst b]; exact hab

/-- Every member of an updated list is the fresh entry or an old member. -/
theorem mem_assocUpdate {κ α : Type} [DecidableEq κ]
    (l : List (κ × α)) (k : κ) (v : α) (e : κ × α)
    (h : e ∈ assocUpdate l k v) : e = (k, v) ∨ e ∈ l := by
  rw [assocUpdate, List.mem_map] at h
  obtain ⟨g, hg, hge⟩ := h
  by_cases hgk : g.1 = k
  · rw [if_pos hgk] at hge
    left
    exact hge.symm
  · rw [if_neg hgk] at hge
    right
    rw [← hge]
    exact hg

/-- Merging a record with itself is the identity (the equality guard). -/
theorem merge_self (fp : ForecastPeriod) : fp.merge fp = .ok fp := by
  simp [ForecastPeriod.merge]

/-- A successful merge keeps the left record's key fields. -/
theorem merge_ok_key (a b c : ForecastPeriod) (h : a.merge b = .ok c) :
    c.period_end = a.period_end ∧ c.period = a.period := by
  simp only [ForecastPeriod.merge] at h
  by_cases h1 : a = b
  · rw [if_pos h1] at h
    injection h with h2
    subst h2
    exact ⟨rfl, rfl⟩
  · rw [if_neg h1] at h
    by_cases h2 : a.period_end ≠ b.period_end ∨ a.period ≠ b.period
    · rw [if_pos h2] at h
      cases h
    · rw [if_neg h2] at h
      injection h with h3
      subst h3
      exact ⟨rfl, rfl⟩

/-- The empty mapping is well-formed. -/
theorem WFMap_nil : WFMap [] :=
  ⟨List.Pairwise.nil, fun e he => absurd he (List.not_mem_nil e)⟩

/-- Folding an entry already stored with exactly its own values leaves the
mapping unchanged (the setdefault-then-merge skips by the equality guard). -/
theorem mergeEntry_of_contains (m : List (ℤ × DailyForecast))
    (fp : ForecastPeriod) (hwf : WFMap m)
    (h : lookupPeriod m fp.period_end = some fp) :
    mergeEntry m fp = .ok m := by
  rw [lookupPeriod] at h
  cases hdf : assocFind m (dateOf fp.period_end) with
  | none =>
    rw [hdf] at h
    cases h
  | some df =>
    rw [hdf] at h
    dsimp only at h
    have hdfwf : WFDaily df :=
      (hwf.2 _ (assocFind_eq_some_mem _ _ _ hdf)).2
    simp only [mergeEntry]
    rw [hdf]
    dsimp only
    simp only [DailyForecast.insertPeriod]
    rw [h]
    dsimp only
    rw [merge_self]
    simp only [Except.map]
    rw [assocUpdate_eq_self df.periods fp.period_end fp hdfwf.1 h]
    show Except.ok (assocUpdate m (dateOf fp.period_end) df) = Except.ok m
    rw [assocUpdate_eq_self m (dateOf fp.period_end) df hwf.1 hdf]

/-- Folding one entry preserves well-formedness of the mapping. -/
theorem mergeEntry_wf (m m2 : List (ℤ × DailyForecast)) (fp : ForecastPeriod)
    (hwf : WFMap m) (h : mergeEntry m fp = .ok m2) : WFMap m2 := by
  simp only [mergeEntry] at h
  cases hdf : assocFind m (dateOf fp.period_end) with
  | none =>
    rw [hdf] at h
    simp only [DailyForecast.insertPeriod, assocFind_nil, merge_self,
      Except.map] at h
    injection h with h2
    subst h2
    constructor
    · rw [List.pairwise_append]
      refine ⟨hwf.1, List.pairwise_singleton _ _, ?_⟩
      intro a ha b hb
      simp only [List.mem_singleton] at hb
      subst hb
      exact ((assocFind_eq_none_iff m (dateOf fp.period_end)).mp hdf) a ha
    · intro e he
      rcases List.mem_append.mp he with h1 | h2
      · exact hwf.2 e h1
      · simp only [List.mem_singleton] at h2
        subst h2
        refine ⟨rfl, List.pairwise_singleton _ _, ?_⟩
        intro p hp
        simp only [List.nil_append, List.mem_singleton] at hp
        subst hp
        exact ⟨rfl, rfl⟩
  | some df =>
    rw [hdf] at h
    have hmem := assocFind_eq_some_mem _ _ _ hdf
    obtain ⟨hdate, hdfwf⟩ := hwf.2 _ hmem
    simp only [DailyForecast.insertPeriod] at h
    cases hold : assocFind df.periods fp.period_end with
    | none =>
      rw [hold] at h
      dsimp only at h
      simp only [merge_self, Except.map] at h
      injection h with h2
      subst h2
      have hdf2 : WFDaily
          { df with periods := df.periods ++ [(fp.period_end, fp)] } := by
        constructor
        · rw [List.pairwise_append]
          refine ⟨hdfwf.1, List.pairwise_singleton _ _, ?_⟩
          intro a ha b hb
          simp only [List.mem_singleton] at hb
          subst hb
          exact ((assocFind_eq_none_iff df.periods fp.period_end).mp hold) a ha
        · intro p hp
          rcases List.mem_append.mp hp with h1 | h2
          · exact hdfwf.2 p h1
          · simp only [List.mem_singleton] at h2
            subst h2
            exact ⟨rfl, hdate ▸ rfl⟩
      constructor
      · exact assocUpdate_pairwise_ne m _ _ hwf.1
      · intro e he
        rcases mem_assocUpdate m _ _ e he with h1 | h2
        · subst h1
          exact ⟨hdate, hdf2⟩
        · exact hwf.2 e h2
    | some existing =>
      rw [hold] at h
      dsimp only at h
      cases hmerge : existing.merge fp with
      | error err =>
        rw [hmerge] at h
        simp only [Except.map] at h
        cases h
      | ok merged =>
        rw [hmerge] at h
        simp only [Except.map] at h
        injection h with h2
        subst h2
        have holdmem := assocFind_eq_some_mem _ _ _ hold
        obtain ⟨hkey, hkeydate⟩ := hdfwf.2 _ holdmem
        have hmkey : merged.period_end = fp.period_end := by
          rw [(merge_ok_key existing fp merged hmerge).1]
          exact hkey
        have hdf2 : WFDaily
            { df with periods :=
                assocUpdate df.periods fp.period_end merged } := by
          constructor
          · exact assocUpdate_pairwise_ne df.periods _ _ hdfwf.1
          · intro p hp
            rcases mem_assocUpdate df.periods _ _ p hp with h1 | h2
            · subst h1
              exact ⟨hmkey, hkeydate⟩
            · exact hdfwf.2 p h2
        constructor
        · exact assocUpdate_pairwise_ne m _ _ hwf.1
        · intro e he
          rcases mem_assocUpdate m _ _ e he with h1 | h2
          · subst h1
            exact ⟨hdate, hdf2⟩
          · exact hwf.2 e h2

/-- Folding a fresh entry succeeds, and changes exactly the lookup at its own
key. -/
theorem mergeEntry_fresh (m : List (ℤ × DailyForecast)) (fp : ForecastPeriod)
    (hwf : WFMap m) (h : lookupPeriod m fp.period_end = none) :
    ∃ m2, mergeEntry m fp = .ok m2 ∧ WFMap m2 ∧
      ∀ k, lookupPeriod m2 k =
        if k = fp.period_end then some fp else lookupPeriod m k := by
  rw [lookupPeriod] at h
  cases hdf : assocFind m (dateOf fp.period_end) with
  | none =>
    have heq : mergeEntry m fp = .ok (m ++ [(dateOf fp.period_end,
        ⟨dateOf fp.period_end, [(fp.period_end, fp)]⟩)]) := by
      simp only [mergeEntry]
      rw [hdf]
      dsimp only
      simp only [DailyForecast.insertPeriod, assocFind_nil]
      rw [merge_self]
      simp only [Except.map]
      rfl
    refine ⟨_, heq, mergeEntry_wf m _ fp hwf heq, ?_⟩
    intro k
    by_cases hk : k = fp.period_end
    · subst hk
      rw [if_pos rfl, lookupPeriod]
      rw [assocFind_append_none m _ _ hdf, assocFind_cons, if_pos rfl]
      dsimp only
      rw [assocFind_cons, if_pos rfl]
    · rw [if_neg hk, lookupPeriod, lookupPeriod]
      by_cases hdk : dateOf k = dateOf fp.period_end
      · rw [hdk, assocFind_append_none m _ _ hdf, hdf, assocFind_cons,
          if_pos rfl]
        dsimp only
        rw [assocFind_cons, if_neg (fun hh => hk hh.symm), assocFind_nil]
      · cases hmk : assocFind m (dateOf k) with
        | some dfk => rw [assocFind_append_some m _ _ _ hmk]
        | none =>
          rw [assocFind_append_none m _ _ hmk, assocFind_cons,
            if_neg (fun hh => hdk hh.symm), assocFind_nil]
  | some df =>
    rw [hdf] at h
    dsimp only at h
    have heq : mergeEntry m fp = .ok (assocUpdate m (dateOf fp.period_end)
        ⟨df.period_date, df.periods ++ [(fp.period_end, fp)]⟩) := by
      simp only [mergeEntry]
      rw [hdf]
      dsimp only
      simp only [DailyForecast.insertPeriod]
      rw [h]
      dsimp only
      rw [merge_self]
      simp only [Except.map]
    refine ⟨_, heq, mergeEntry_wf m _ fp hwf heq, ?_⟩
    intro k
    by_cases hk : k = fp.period_end
    · subst hk
      rw [if_pos rfl, lookupPeriod]
      rw [assocFind_update_self m _ _ df hdf]
      dsimp only
      rw [assocFind_append_none _ _ _ h, assocFind_cons, if_pos rfl]
    · rw [if_neg hk, lookupPeriod, lookupPeriod]
      by_cases hdk : dateOf k = dateOf fp.period_end
      · rw [hdk, assocFind_update_self m _ _ df hdf, hdf]
        dsimp only
        cases hpk : assocFind df.periods k with
        | some v =>
          rw [assocFind_append_some _ _ _ _ hpk]
        | none =>
          rw [assocFind_append_none _ _ _ hpk, assocFind_cons,
            if_neg (fun hh => hk hh.symm), assocFind_nil]
      · rw [assocFind_update_ne m _ _ _ hdk]

/-- Folding a list of entries preserves well-formedness. -/
theorem foldEntries_wf (l : List ForecastPeriod) :
    ∀ m m2, WFMap m → foldEntries m l = .ok m2 → WFMap m2 := by
  induction l with
  | nil =>
    intro m m2 hwf h
    simp only [foldEntries] at h
    injection h with h2
    subst h2
    exact hwf
  | cons fp rest ih =>
    intro m m2 hwf h
    simp only [foldEntries] at h
    cases hme : mergeEntry m fp with
    | error e => rw [hme] at h; cases h
    | ok m1 =>
      rw [hme] at h
      exact ih m1 m2 (mergeEntry_wf m m1 fp hwf hme) h

/-- Folding entries whose keys are all already stored with exactly their own
values leaves the mapping unchanged. -/
theorem foldEntries_noop (l : List ForecastPeriod) :
    ∀ m, WFMap m → (∀ fp ∈ l, lookupPeriod m fp.period_end = some fp) →
      foldEntries m l = .ok m := by
  induction l with
  | nil => intro m _ _; rfl
  | cons fp rest ih =>
    intro m hwf hall
    simp only [foldEntries]
    rw [mergeEntry_of_contains m fp hwf (hall fp (List.mem_cons_self fp rest))]
    exact ih m hwf fun g hg => hall g (List.mem_cons_of_mem fp hg)

/-- Folding key-distinct fresh entries succeeds, stores each entry under its
own key, and leaves every other key's lookup unchanged. -/
theorem foldEntries_fresh (l : List ForecastPeriod) :
    ∀ m, WFMap m → l.Pairwise (fun a b => a.period_end ≠ b.period_end) →
      (∀ fp ∈ l, lookupPeriod m fp.period_end = none) →
      ∃ m2, foldEntries m l = .ok m2 ∧ WFMap m2 ∧
        (∀ fp ∈ l, lookupPeriod m2 fp.period_end = some fp) ∧
        (∀ k, (∀ fp ∈ l, fp.period_end ≠ k) →
          lookupPeriod m2 k = lookupPeriod m k) := by
  induction l with
  | nil =>
    intro m hwf _ _
    exact ⟨m, rfl, hwf, by simp, fun k _ => rfl⟩
  | cons fp rest ih =>
    intro m hwf hpw habs
    obtain ⟨m1, hm1, hwf1, hlook⟩ := mergeEntry_fresh m fp hwf
      (habs fp (List.mem_cons_self fp rest))
    rw [List.pairwise_cons] at hpw
    obtain ⟨m2, hm2, hwf2, hcont2, hpres2⟩ := ih m1 hwf1 hpw.2 (by
      intro g hg
      rw [hlook g.period_end, if_neg (fun hh => (hpw.1 g hg) hh.symm)]
      exact habs g (List.mem_cons_of_mem fp hg))
    refine ⟨m2, ?_, hwf2, ?_, ?_⟩
    · simp only [foldEntries]
      rw [hm1]
      exact hm2
    · intro g hg
      rcases List.mem_cons.mp hg with h1 | h2
      · subst h1
        rw [hpres2 g.period_end (fun g2 hg2 => (hpw.1 g2 hg2).symm),
          hlook, if_pos rfl]
      · exact hcont2 g h2
    · intro k hk
      rw [hpres2 k (fun g hg => hk g (List.mem_cons_of_mem fp hg)),
        hlook, if_neg (fun hh => (hk fp (List.mem_cons_self fp rest)) hh.symm)]

/-- Splitting a fold of an appended entry list at the seam. -/
theorem foldEntries_append (l1 l2 : List ForecastPeriod) :
    ∀ m, foldEntries m (l1 ++ l2) =
      match foldEntries m l1 with
      | .error e => .error e
      | .ok m2 => foldEntries m2 l2 := by
  induction l1 with
  | nil => intro m; rfl
  | cons fp rest ih =>
    intro m
    rw [List.cons_append]
    simp only [foldEntries]
    cases hme : mergeEntry m fp with
    | error e => rfl
    | ok m1 => exact ih m1

/-- A period whose p90 power is at or below the ceiling has zero excess. -/
theorem p90_excess_kwh_of_le (fp : ForecastPeriod) (C : ℚ)
    (h : fp.p90_kw ≤ C) : fp.p90_excess_kwh C = 0 := by
  rw [ForecastPeriod.p90_excess_kwh, pymax_eq_max,
    max_eq_left (sub_nonpos.mpr h), zero_mul]

/-- Excess energy is nonnegative for a nonnegative duration. -/
theorem p90_excess_kwh_nonneg (fp : ForecastPeriod) (C : ℚ)
    (h : 0 ≤ fp.period) : 0 ≤ fp.p90_excess_kwh C := by
  rw [ForecastPeriod.p90_excess_kwh, pymax_eq_max]
  apply mul_nonneg (le_max_left 0 _)
  rw [ForecastPeriod.hour_fraction]
  exact div_nonneg h (by norm_num [oneHourSeconds])

/-- Availability is nonnegative for a nonnegative duration. -/
theorem p90_avail_kwh_nonneg (fp : ForecastPeriod) (C : ℚ)
    (h : 0 ≤ fp.period) : 0 ≤ fp.p90_avail_kwh C := by
  rw [ForecastPeriod.p90_avail_kwh, pymax_eq_max]
  apply mul_nonneg (le_max_left 0 _)
  rw [ForecastPeriod.hour_fraction]
  exact div_nonneg h (by norm_num [oneHourSeconds])

/-- Total daily excess is nonnegative when all durations are nonnegative. -/
theorem daily_excess_nonneg (df : DailyForecast) (C : ℚ)
    (h : ∀ e ∈ df.periods, 0 ≤ e.2.period) : 0 ≤ df.p90_excess_kwh C := by
  rw [DailyForecast.p90_excess_kwh]
  apply List.sum_nonneg
  intro x hx
  simp only [List.mem_map] at hx
  obtain ⟨e, he, rfl⟩ := hx
  exact p90_excess_kwh_nonneg e.2 C (h e he)

/-- The forward scan finds nothing exactly when no period has positive
excess. -/
theorem scanExcess_eq_none_iff (C : ℚ) (l : List ForecastPeriod) :
    scanExcess C l = none ↔ ∀ fp ∈ l, ¬ 0 < fp.p90_excess_kwh C := by
  induction l with
  | nil => simp [scanExcess]
  | cons fp rest ih =>
    by_cases hfp : 0 < fp.p90_excess_kwh C
    · simp [scanExcess, hfp]
    · cases hrest : scanExcess C rest with
      | none =>
        simp only [scanExcess, if_neg hfp, hrest]
        constructor
        · intro _ g hg
          rcases List.mem_cons.mp hg with h1 | h2
          · subst h1; exact hfp
          · exact (ih.mp hrest) g h2
        · intro _; trivial
      | some x =>
        obtain ⟨pre, rt, cb⟩ := x
        simp only [scanExcess, if_neg hfp, hrest]
        constructor
        · intro hcontra; cases hcontra
        · intro hall
          have hnone : scanExcess C rest = none :=
            ih.mpr fun g hg => hall g (List.mem_cons_of_mem _ hg)
          rw [hrest] at hnone
          cases hnone

/-- A nonzero daily excess forces some period value to have strictly positive
excess (the terms are nonnegative for nonnegative durations). -/
theorem exists_pos_excess (df : DailyForecast) (C : ℚ)
    (hdur : ∀ e ∈ df.periods, 0 ≤ e.2.period)
    (hne : df.p90_excess_kwh C ≠ 0) :
    ∃ fp ∈ df.periods.map Prod.snd, 0 < fp.p90_excess_kwh C := by
  by_contra hcon
  push_neg at hcon
  apply hne
  rw [DailyForecast.p90_excess_kwh]
  apply List.sum_eq_zero
  intro x hx
  simp only [List.mem_map] at hx
  obtain ⟨e, he, rfl⟩ := hx
  have h1 := p90_excess_kwh_nonneg e.2 C (hdur e he)
  have h2 := hcon e.2 (List.mem_map_of_mem Prod.snd he)
  linarith

/-- Shape of the plan in the nonzero-excess branch when the forward scan
finds no excess block (the safeguard branch of the source). -/
theorem get_charge_plan_scan_none (cfg : Config) (now : ℚ) (df : DailyForecast)
    (hne : df.p90_excess_kwh cfg.inverter_capacity_dc ≠ 0)
    (hcap : cfg.battery_capacity ≠ 0)
    (hscan : scanExcess cfg.inverter_capacity_dc (sortedPeriods df) = none) :
    get_charge_plan cfg now df = .ok
      ⟨df.p90_excess_kwh cfg.inverter_capacity_dc, none,
       some (targetDischargePct cfg (df.p90_excess_kwh cfg.inverter_capacity_dc)),
       none, none⟩ := by
  simp only [get_charge_plan]
  rw [if_neg hne, if_neg hcap, hscan]

/-- Shape of the plan in the nonzero-excess branch when the forward scan
finds the excess block. -/
theorem get_charge_plan_scan_some (cfg : Config) (now : ℚ) (df : DailyForecast)
    (pre : List ForecastPeriod) (rt : ℚ) (cb : Option ℚ)
    (hne : df.p90_excess_kwh cfg.inverter_capacity_dc ≠ 0)
    (hcap : cfg.battery_capacity ≠ 0)
    (hscan : scanExcess cfg.inverter_capacity_dc (sortedPeriods df) =
      some (pre, rt, cb)) :
    get_charge_plan cfg now df = .ok
      ⟨df.p90_excess_kwh cfg.inverter_capacity_dc,
       match dischargeScan cfg.inverter_capacity_dc
           (kwhToDischarge cfg (df.p90_excess_kwh cfg.inverter_capacity_dc))
           0 pre.reverse with
         | some t => if t < now then some (now + 300) else some t
         | none => none,
       some (targetDischargePct cfg (df.p90_excess_kwh cfg.inverter_capacity_dc)),
       some rt, cb⟩ := by
  simp only [get_charge_plan]
  rw [if_neg hne, if_neg hcap, hscan]

/-- Decomposition of a successful forward scan: the input splits as the
non-excess periods, the first excess period (whose end is the reserve time),
and the remainder searched for the clean backup time. -/
theorem scanExcess_some_decomp (C : ℚ) (l : List ForecastPeriod) :
    ∀ (pre : List ForecastPeriod) (rt : ℚ) (cb : Option ℚ),
      scanExcess C l = some (pre, rt, cb) →
      ∃ x rest, l = pre ++ x :: rest ∧ rt = x.period_end ∧
        0 < x.p90_excess_kwh C ∧ cb = findCleanBackup C rest ∧
        ∀ fp ∈ pre, ¬ 0 < fp.p90_excess_kwh C := by
  induction l with
  | nil => intro pre rt cb h; cases h
  | cons fp rest ih =>
    intro pre rt cb h
    by_cases hfp : 0 < fp.p90_excess_kwh C
    · simp only [scanExcess, if_pos hfp, Option.some.injEq, Prod.mk.injEq] at h
      obtain ⟨h1, h2, h3⟩ := h
      subst h1
      exact ⟨fp, rest, rfl, h2.symm, hfp, h3.symm, by simp⟩
    · simp only [scanExcess, if_neg hfp] at h
      cases hres : scanExcess C rest with
      | none => rw [hres] at h; cases h
      | some y =>
        obtain ⟨pre2, rt2, cb2⟩ := y
        rw [hres] at h
        simp only [Option.some.injEq, Prod.mk.injEq] at h
        obtain ⟨h1, h2, h3⟩ := h
        obtain ⟨x, rest2, hsplit, hrt, hx, hcb, hall⟩ := ih pre2 rt2 cb2 hres
        refine ⟨x, rest2, ?_, h2.symm.trans hrt, hx, h3.symm.trans hcb, ?_⟩
        · rw [← h1, hsplit]; rfl
        · intro g hg
          rw [← h1] at hg
          rcases List.mem_cons.mp hg with h4 | h5
          · subst h4; exact hfp
          · exact hall g h5

/-- A clean backup instant is the end of some scanned period. -/
theorem findCleanBackup_mem (C : ℚ) (l : List ForecastPeriod) (t : ℚ)
    (h : findCleanBackup C l = some t) : ∃ x ∈ l, t = x.period_end := by
  induction l with
  | nil => cases h
  | cons fp rest ih =>
    by_cases hfp : fp.p90_excess_kwh C = 0
    · rw [findCleanBackup, if_pos hfp, Option.some.injEq] at h
      exact ⟨fp, List.mem_cons_self fp rest, h.symm⟩
    · rw [findCleanBackup, if_neg hfp] at h
      obtain ⟨x, hx, hxt⟩ := ih h
      exact ⟨x, List.mem_cons_of_mem fp hx, hxt⟩

/-- Evaluation of totalAvail on nil. -/
theorem totalAvail_nil (C : ℚ) : totalAvail C [] = 0 := rfl

/-- Evaluation of totalAvail on a cons cell. -/
theorem totalAvail_cons (C : ℚ) (g : ForecastPeriod) (l : List ForecastPeriod) :
    totalAvail C (g :: l) = g.p90_avail_kwh C + totalAvail C l := by
  simp [totalAvail]

/-- Total availability is nonnegative when every term is. -/
theorem totalAvail_nonneg (C : ℚ) (l : List ForecastPeriod)
    (h : ∀ g ∈ l, 0 ≤ g.p90_avail_kwh C) : 0 ≤ totalAvail C l := by
  rw [totalAvail]
  apply List.sum_nonneg
  intro x hx
  simp only [List.mem_map] at hx
  obtain ⟨g, hg, rfl⟩ := hx
  exact h g hg

/-- Reversing the scanned periods does not change the total availability. -/
theorem totalAvail_reverse (C : ℚ) (l : List ForecastPeriod) :
    totalAvail C l.reverse = totalAvail C l := by
  rw [totalAvail, totalAvail, List.map_reverse, List.sum_reverse]

/-- A successful backward scan returns the start instant of a scanned
period. -/
theorem dischargeScan_mem (C th : ℚ) (l : List ForecastPeriod) :
    ∀ (acc t : ℚ), dischargeScan C th acc l = some t →
      ∃ fp ∈ l, t = fp.period_end - fp.period := by
  induction l with
  | nil => intro acc t h; cases h
  | cons fp rest ih =>
    intro acc t h
    rw [dischargeScan] at h
    by_cases hc : th ≤ acc + fp.p90_avail_kwh C
    · rw [if_pos hc, Option.some.injEq] at h
      exact ⟨fp, List.mem_cons_self fp rest, h.symm⟩
    · rw [if_neg hc] at h
      obtain ⟨g, hg, hgt⟩ := ih _ t h
      exact ⟨g, List.mem_cons_of_mem fp hg, hgt⟩

/-- The backward scan finds nothing when the whole accumulated availability
stays below the threshold (running totals are monotone for nonnegative
terms). -/
theorem dischargeScan_eq_none (C th : ℚ) (l : List ForecastPeriod) :
    ∀ acc : ℚ, (∀ g ∈ l, 0 ≤ g.p90_avail_kwh C) →
      acc + totalAvail C l < th → dischargeScan C th acc l = none := by
  induction l with
  | nil => intro acc _ _; rfl
  | cons g rest ih =>
    intro acc hnn h
    rw [totalAvail_cons] at h
    have hrest : 0 ≤ totalAvail C rest :=
      totalAvail_nonneg C rest fun g hg => hnn g (List.mem_cons_of_mem _ hg)
    rw [dischargeScan, if_neg (by linarith)]
    exact ih (acc + g.p90_avail_kwh C)
      (fun g hg => hnn g (List.mem_cons_of_mem _ hg)) (by linarith)

/-- The backward scan stops at the first period where the running total
reaches the threshold, returning that period's start instant. -/
theorem dischargeScan_cross (C th : ℚ) (fp : ForecastPeriod)
    (l2 : List ForecastPeriod) (l1 : List ForecastPeriod) :
    ∀ acc : ℚ, (∀ g ∈ l1, 0 ≤ g.p90_avail_kwh C) →
      acc + totalAvail C l1 < th →
      th ≤ acc + totalAvail C l1 + fp.p90_avail_kwh C →
      dischargeScan C th acc (l1 ++ fp :: l2) =
        some (fp.period_end - fp.period) := by
  induction l1 with
  | nil =>
    intro acc _ h1 h2
    rw [totalAvail_nil] at h2
    rw [List.nil_append, dischargeScan, if_pos (by linarith)]
  | cons g rest ih =>
    intro acc hnn h1 h2
    rw [totalAvail_cons] at h1 h2
    have hg : 0 ≤ g.p90_avail_kwh C := hnn g (List.mem_cons_self g rest)
    rw [List.cons_append, dischargeScan, if_neg (by
      have hrest : 0 ≤ totalAvail C rest :=
        totalAvail_nonneg C rest fun g hg => hnn g (List.mem_cons_of_mem _ hg)
      linarith)]
    exact ih (acc + g.p90_avail_kwh C)
      (fun g hg => hnn g (List.mem_cons_of_mem _ hg))
      (by linarith) (by linarith)

/-- The planner's sorted list is sorted by period end. -/
theorem sortedPeriods_pairwise (df : DailyForecast) :
    (sortedPeriods df).Pairwise periodEndLE :=
  List.sorted_insertionSort periodEndLE (df.periods.map Prod.snd)

/-- Members of the sorted list are exactly the aggregate's period values. -/
theorem mem_sortedPeriods (df : DailyForecast) (fp : ForecastPeriod) :
    fp ∈ sortedPeriods df ↔ fp ∈ df.periods.map Prod.snd :=
  List.mem_insertionSort periodEndLE

/-- With pairwise-distinct period ends the sorted list is strictly
increasing. -/
theorem sortedPeriods_pairwise_lt (df : DailyForecast)
    (hd : (df.periods.map Prod.snd).Pairwise
      (fun a b => a.period_end ≠ b.period_end)) :
    (sortedPeriods df).Pairwise (fun a b => a.period_end < b.period_end) := by
  have h1 := sortedPeriods_pairwise df
  have h2 : (sortedPeriods df).Pairwise
      (fun a b => a.period_end ≠ b.period_end) := by
    have hperm := List.perm_insertionSort periodEndLE (df.periods.map Prod.snd)
    exact (List.Perm.pairwise_iff (fun h => h.symm) hperm).mpr hd
  exact (h1.and h2).imp fun h => lt_of_le_of_ne h.1 h.2

/-! Claim theorems. -/

/-- C1, counterexample: two distinct entries with the same interval end and
duration and equal estimates are NOT summed by merge — the value-equality
guard skips the merge, so the result keeps (1, 2, 3) instead of the sums
(2, 4, 6). The claim's universal summing statement fails here. -/
theorem C1_counterexample :
    ForecastPeriod.merge ⟨0, 1800, 1, 2, 3⟩ ⟨0, 1800, 1, 2, 3⟩ ≠
      Except.ok ⟨0, 1800, 2, 4, 6⟩ := by
  norm_num [ForecastPeriod.merge]

/-- C1, amended: merging two entries with the same interval end and duration
sums the three confidence-band estimates when the entries are not wholly
equal; merging two equal entries (in particular an entry with itself) leaves
the estimates unchanged. -/
theorem C1_merge_sums_unless_equal (a b : ForecastPeriod)
    (hend : a.period_end = b.period_end) (hper : a.period = b.period) :
    (a ≠ b → a.merge b = .ok ⟨a.period_end, a.period, a.p10_kw + b.p10_kw,
        a.p50_kw + b.p50_kw, a.p90_kw + b.p90_kw⟩)
    ∧ (a = b → a.merge b = .ok a) := by
  constructor
  · intro hne
    have hcond : ¬(a.period_end ≠ b.period_end ∨ a.period ≠ b.period) := by
      push_neg
      exact ⟨hend, hper⟩
    simp only [ForecastPeriod.merge]
    rw [if_neg hne, if_neg hcond]
  · intro he
    simp only [ForecastPeriod.merge]
    rw [if_pos he]

/-- C1, witness: the amended theorem at concrete records with distinct
estimates sums them. -/
theorem C1_witness :
    ForecastPeriod.merge ⟨0, 1800, 1, 2, 3⟩ ⟨0, 1800, 4, 5, 6⟩ =
      Except.ok ⟨0, 1800, 5, 7, 9⟩ := by
  have h := (C1_merge_sums_unless_equal ⟨0, 1800, 1, 2, 3⟩ ⟨0, 1800, 4, 5, 6⟩
    rfl rfl).1 (by norm_num [ForecastPeriod.mk.injEq])
  rw [h]
  norm_num [ForecastPeriod.mk.injEq]

/-- C3: merging two entries with equal parsed interval ends but different
durations raises the merge conflict, both at the record level and through
merge_forecasts (which aborts instead of keeping either record's values). -/
theorem C3_merge_conflict (a b : ForecastPeriod)
    (hend : a.period_end = b.period_end) (hper : a.period ≠ b.period) :
    a.merge b = .error .conflict ∧
      merge_forecasts [[a, b]] = .error .conflict := by
  have hne : a ≠ b := fun h => hper (congrArg ForecastPeriod.period h)
  have hm : a.merge b = .error .conflict := by
    simp only [ForecastPeriod.merge]
    rw [if_neg hne, if_pos (Or.inr hper)]
  refine ⟨hm, ?_⟩
  simp [merge_forecasts, foldEntries, mergeEntry, DailyForecast.insertPeriod,
    assocFind_nil, assocFind_cons, hend, ForecastPeriod.merge, hne, hper,
    Except.map]

/-- C3, witness: the conflict at concrete entries sharing an end instant with
durations 1800 and 3600. -/
theorem C3_witness :
    ForecastPeriod.merge ⟨0, 1800, 1, 2, 3⟩ ⟨0, 3600, 1, 2, 3⟩ =
        .error .conflict ∧
      merge_forecasts [[⟨0, 1800, 1, 2, 3⟩, ⟨0, 3600, 1, 2, 3⟩]] =
        .error .conflict :=
  C3_merge_conflict _ _ rfl (by norm_num)

/-- C4: when every period's p90 power is at or below the inverter ceiling the
total expected p90 excess is exactly zero and the planner returns the
zero-excess result with every optional field absent. -/
theorem C4_no_excess_plan (cfg : Config) (now : ℚ) (df : DailyForecast)
    (h : ∀ e ∈ df.periods, e.2.p90_kw ≤ cfg.inverter_capacity_dc) :
    df.p90_excess_kwh cfg.inverter_capacity_dc = 0 ∧
      get_charge_plan cfg now df = .ok ⟨0, none, none, none, none⟩ := by
  have hz : df.p90_excess_kwh cfg.inverter_capacity_dc = 0 := by
    rw [DailyForecast.p90_excess_kwh]
    apply List.sum_eq_zero
    intro x hx
    simp only [List.mem_map] at hx
    obtain ⟨e, he, rfl⟩ := hx
    exact p90_excess_kwh_of_le e.2 _ (h e he)
  refine ⟨hz, ?_⟩
  simp only [get_charge_plan]
  rw [if_pos hz]

/-- C4, witness: a single sub-ceiling period produces the empty plan. -/
theorem C4_witness :
    DailyForecast.p90_excess_kwh ⟨0, [(3600, ⟨3600, 3600, 1, 2, 5⟩)]⟩ 8 = 0 ∧
      get_charge_plan ⟨10, 8, 90, 10, 10⟩ 0
          ⟨0, [(3600, ⟨3600, 3600, 1, 2, 5⟩)]⟩ =
        .ok ⟨0, none, none, none, none⟩ :=
  C4_no_excess_plan ⟨10, 8, 90, 10, 10⟩ 0 _ (by
    intro e he
    simp only [List.mem_singleton] at he
    subst he
    norm_num)

/-- C6, counterexample: planning long after the day's periods, the computed
discharge start (instant 0) lies in the past and is clamped to now + 5
minutes = 100300, which does NOT precede target_reserve_time = 7200: the
ordering fails after the clamp step. -/
theorem C6_counterexample :
    get_charge_plan ⟨10, 8, 90, 10, 10⟩ 100000
        ⟨0, [(3600, ⟨3600, 3600, 0, 0, 0⟩), (7200, ⟨7200, 3600, 0, 0, 10⟩)]⟩ =
      .ok ⟨2, some 100300, some 60, some 7200, none⟩ ∧
      ¬ ((100300 : ℚ) < 7200) := by
  refine ⟨?_, by norm_num⟩
  norm_num [get_charge_plan, DailyForecast.p90_excess_kwh,
    ForecastPeriod.p90_excess_kwh, ForecastPeriod.p90_avail_kwh, pymax,
    ForecastPeriod.hour_fraction, oneHourSeconds, sortedPeriods,
    List.insertionSort, List.orderedInsert, periodEndLE, scanExcess,
    findCleanBackup, dischargeScan, targetDischargePct, excessPct,
    kwhToDischarge]

/-- C6, amended: for an aggregate with pairwise-distinct period ends and
nonnegative durations, a present discharge_start_time strictly precedes
target_reserve_time provided now plus the 5-minute grace precedes
target_reserve_time (in particular always before the clamp step); and a
present target_reserve_time precedes or equals a present clean_backup_time
unconditionally. -/
theorem C6_time_ordering (cfg : Config) (now : ℚ) (df : DailyForecast)
    (r : ForecastResult)
    (hd : (df.periods.map Prod.snd).Pairwise
      (fun a b => a.period_end ≠ b.period_end))
    (hdur : ∀ e ∈ df.periods, 0 ≤ e.2.period)
    (h : get_charge_plan cfg now df = .ok r) :
    (∀ t rt, r.discharge_start_time = some t →
      r.target_reserve_time = some rt → now + 300 < rt → t < rt) ∧
    (∀ rt cb, r.target_reserve_time = some rt →
      r.clean_backup_time = some cb → rt ≤ cb) := by
  by_cases hz : df.p90_excess_kwh cfg.inverter_capacity_dc = 0
  · simp only [get_charge_plan] at h
    rw [if_pos hz] at h
    injection h with h2
    subst h2
    exact ⟨fun t rt ht => Option.noConfusion ht,
      fun rt cb hrt => Option.noConfusion hrt⟩
  · by_cases hcap : cfg.battery_capacity = 0
    · simp only [get_charge_plan] at h
      rw [if_neg hz, if_pos hcap] at h
      cases h
    · cases hscan : scanExcess cfg.inverter_capacity_dc (sortedPeriods df) with
      | none =>
        rw [get_charge_plan_scan_none cfg now df hz hcap hscan] at h
        injection h with h2
        subst h2
        exact ⟨fun t rt ht => Option.noConfusion ht,
          fun rt cb hrt => Option.noConfusion hrt⟩
      | some x =>
        obtain ⟨pre, rt0, cb0⟩ := x
        obtain ⟨fx, rest, hsplit, hrtx, hxpos, hcb0, hallpre⟩ :=
          scanExcess_some_decomp cfg.inverter_capacity_dc (sortedPeriods df)
            pre rt0 cb0 hscan
        rw [get_charge_plan_scan_some cfg now df pre rt0 cb0 hz hcap hscan] at h
        injection h with h2
        subst h2
        constructor
        · intro t rt ht hrt hnow
          injection hrt with hrt2
          cases hds : dischargeScan cfg.inverter_capacity_dc
              (kwhToDischarge cfg (df.p90_excess_kwh cfg.inverter_capacity_dc))
              0 pre.reverse with
          | none =>
            rw [hds] at ht
            dsimp only at ht
            exact Option.noConfusion ht
          | some t0 =>
            rw [hds] at ht
            dsimp only at ht
            by_cases hlt : t0 < now
            · rw [if_pos hlt] at ht
              injection ht with ht2
              linarith
            · rw [if_neg hlt] at ht
              injection ht with ht2
              obtain ⟨fp, hfp, ht0⟩ := dischargeScan_mem _ _ pre.reverse 0 t0 hds
              rw [List.mem_reverse] at hfp
              have hlt2 : fp.period_end < fx.period_end := by
                have hplt := sortedPeriods_pairwise_lt df hd
                rw [hsplit, List.pairwise_append] at hplt
                exact hplt.2.2 fp hfp fx (List.mem_cons_self _ _)
              have hdur2 : 0 ≤ fp.period := by
                have hmem : fp ∈ sortedPeriods df := by
                  rw [hsplit]
                  exact List.mem_append_left _ hfp
                rw [mem_sortedPeriods] at hmem
                simp only [List.mem_map] at hmem
                obtain ⟨e, he, hee⟩ := hmem
                exact hee ▸ hdur e he
              linarith
        · intro rt cb hrt hcb
          injection hrt with hrt2
          rw [hcb0] at hcb
          obtain ⟨y, hy, hyt⟩ := findCleanBackup_mem _ rest cb hcb
          have hple := sortedPeriods_pairwise df
          rw [hsplit, List.pairwise_append] at hple
          have h5 : fx.period_end ≤ y.period_end :=
            (List.pairwise_cons.mp hple.2.1).1 y hy
          linarith

/-- C6, witness: at a concrete three-period aggregate planned at instant 0
(no clamp), the discharge start 0 precedes the reserve time 7200 which
precedes the clean backup time 10800. -/
theorem C6_witness :
    get_charge_plan ⟨10, 8, 90, 10, 10⟩ 0
        ⟨0, [(3600, ⟨3600, 3600, 0, 0, 0⟩), (7200, ⟨7200, 3600, 0, 0, 10⟩),
             (10800, ⟨10800, 3600, 0, 0, 0⟩)]⟩ =
      .ok ⟨2, some 0, some 60, some 7200, some 10800⟩ ∧
      (0 : ℚ) < 7200 ∧ (7200 : ℚ) ≤ 10800 := by
  have hplan : get_charge_plan ⟨10, 8, 90, 10, 10⟩ 0
      ⟨0, [(3600, ⟨3600, 3600, 0, 0, 0⟩), (7200, ⟨7200, 3600, 0, 0, 10⟩),
           (10800, ⟨10800, 3600, 0, 0, 0⟩)]⟩ =
      .ok ⟨2, some 0, some 60, some 7200, some 10800⟩ := by
    norm_num [get_charge_plan, DailyForecast.p90_excess_kwh,
      ForecastPeriod.p90_excess_kwh, ForecastPeriod.p90_avail_kwh, pymax,
      ForecastPeriod.hour_fraction, oneHourSeconds, sortedPeriods,
      List.insertionSort, List.orderedInsert, periodEndLE, scanExcess,
      findCleanBackup, dischargeScan, targetDischargePct, excessPct,
      kwhToDischarge]
  have h := C6_time_ordering ⟨10, 8, 90, 10, 10⟩ 0 _ _
    (by
      simp only [List.map_cons, List.map_nil, List.pairwise_cons,
        List.mem_cons, List.mem_singleton, List.not_mem_nil]
      norm_num)
    (by
      intro e he
      rcases List.mem_cons.mp he with h1 | he2
      · subst h1; norm_num
      rcases List.mem_cons.mp he2 with h2 | he3
      · subst h2; norm_num
      simp only [List.mem_singleton] at he3
      subst he3; norm_num)
    hplan
  exact ⟨hplan, h.1 0 7200 rfl rfl (by norm_num), h.2 7200 10800 rfl rfl⟩

/-- C7, counterexample: availability before the excess block (0.1 kWh) never
reaches the discharge threshold (3 kWh), and as the claim says
discharge_start_time is absent — but clean_backup_time is also absent
(the excess block runs to the end of the day), so "the other fields of the
plan remain populated" fails. -/
theorem C7_counterexample :
    totalAvail 8 [⟨3600, 3600, 0, 0, 79/10⟩] <
        kwhToDischarge ⟨10, 8, 90, 10, 10⟩ 2 ∧
      get_charge_plan ⟨10, 8, 90, 10, 10⟩ 0
          ⟨0, [(3600, ⟨3600, 3600, 0, 0, 79/10⟩),
               (7200, ⟨7200, 3600, 0, 0, 10⟩)]⟩ =
        .ok ⟨2, none, some 60, some 7200, none⟩ := by
  constructor
  · norm_num [totalAvail, ForecastPeriod.p90_avail_kwh, pymax,
      ForecastPeriod.hour_fraction, oneHourSeconds, kwhToDischarge,
      targetDischargePct, excessPct]
  · norm_num [get_charge_plan, DailyForecast.p90_excess_kwh,
      ForecastPeriod.p90_excess_kwh, ForecastPeriod.p90_avail_kwh, pymax,
      ForecastPeriod.hour_fraction, oneHourSeconds, sortedPeriods,
      List.insertionSort, List.orderedInsert, periodEndLE, scanExcess,
      findCleanBackup, dischargeScan, targetDischargePct, excessPct,
      kwhToDischarge]

/-- C7, amended: in the nonzero-excess branch with the excess block found, the
backward scan over the reversed periods preceding the block accumulates each
period's availability; if the total availability of the preceding periods
never reaches kwh_to_discharge, discharge_start_time is absent while
expected_excess, the discharge target and target_reserve_time remain
populated (clean_backup_time keeps whatever the forward scan found, and is
absent when the excess block runs to the end of the day); at the first
period of the reversed order where the running total reaches or exceeds the
threshold, discharge_start_time is that period's start instant (its end
minus its duration), kept as-is when it is not in the past. -/
theorem C7_backward_scan (cfg : Config) (now : ℚ) (df : DailyForecast)
    (pre : List ForecastPeriod) (rt : ℚ) (cb : Option ℚ)
    (hdur : ∀ e ∈ df.periods, 0 ≤ e.2.period)
    (hne : df.p90_excess_kwh cfg.inverter_capacity_dc ≠ 0)
    (hcap : cfg.battery_capacity ≠ 0)
    (hscan : scanExcess cfg.inverter_capacity_dc (sortedPeriods df) =
      some (pre, rt, cb)) :
    (totalAvail cfg.inverter_capacity_dc pre <
        kwhToDischarge cfg (df.p90_excess_kwh cfg.inverter_capacity_dc) →
      get_charge_plan cfg now df = .ok
        ⟨df.p90_excess_kwh cfg.inverter_capacity_dc, none,
         some (targetDischargePct cfg
           (df.p90_excess_kwh cfg.inverter_capacity_dc)),
         some rt, cb⟩) ∧
    (∀ l1 fp l2, pre.reverse = l1 ++ fp :: l2 →
      totalAvail cfg.inverter_capacity_dc l1 <
        kwhToDischarge cfg (df.p90_excess_kwh cfg.inverter_capacity_dc) →
      kwhToDischarge cfg (df.p90_excess_kwh cfg.inverter_capacity_dc) ≤
        totalAvail cfg.inverter_capacity_dc l1 +
          fp.p90_avail_kwh cfg.inverter_capacity_dc →
      ¬ fp.period_end - fp.period < now →
      get_charge_plan cfg now df = .ok
        ⟨df.p90_excess_kwh cfg.inverter_capacity_dc,
         some (fp.period_end - fp.period),
         some (targetDischargePct cfg
           (df.p90_excess_kwh cfg.inverter_capacity_dc)),
         some rt, cb⟩) := by
  obtain ⟨fx, rest, hsplit, hrtx, hxpos, hcb0, hallpre⟩ :=
    scanExcess_some_decomp cfg.inverter_capacity_dc (sortedPeriods df)
      pre rt cb hscan
  have hnn : ∀ g ∈ pre, 0 ≤ g.p90_avail_kwh cfg.inverter_capacity_dc := by
    intro g hg
    apply p90_avail_kwh_nonneg
    have hmem : g ∈ sortedPeriods df := by
      rw [hsplit]
      exact List.mem_append_left _ hg
    rw [mem_sortedPeriods] at hmem
    simp only [List.mem_map] at hmem
    obtain ⟨e, he, hee⟩ := hmem
    exact hee ▸ hdur e he
  constructor
  · intro htot
    have hds : dischargeScan cfg.inverter_capacity_dc
        (kwhToDischarge cfg (df.p90_excess_kwh cfg.inverter_capacity_dc))
        0 pre.reverse = none := by
      apply dischargeScan_eq_none
      · intro g hg
        rw [List.mem_reverse] at hg
        exact hnn g hg
      · rw [zero_add, totalAvail_reverse]
        exact htot
    rw [get_charge_plan_scan_some cfg now df pre rt cb hne hcap hscan, hds]
  · intro l1 fp l2 hrev h1 h2 hnlt
    have hds : dischargeScan cfg.inverter_capacity_dc
        (kwhToDischarge cfg (df.p90_excess_kwh cfg.inverter_capacity_dc))
        0 pre.reverse = some (fp.period_end - fp.period) := by
      rw [hrev]
      apply dischargeScan_cross
      · intro g hg
        apply hnn
        rw [← List.mem_reverse, hrev]
        exact List.mem_append_left _ hg
      · rw [zero_add]
        exact h1
      · rw [zero_add]
        exact h2
    rw [get_charge_plan_scan_some cfg now df pre rt cb hne hcap hscan, hds]
    dsimp only
    rw [if_neg hnlt]

/-- C7, witness: the amended theorem's below-threshold branch at a concrete
aggregate whose preceding availability (0.1 kWh) stays below the 3 kWh
threshold: the plan keeps excess, target and reserve time but no discharge
start. -/
theorem C7_witness :
    get_charge_plan ⟨10, 8, 90, 10, 10⟩ 0
        ⟨0, [(3600, ⟨3600, 3600, 0, 0, 79/10⟩),
             (7200, ⟨7200, 3600, 0, 0, 10⟩)]⟩ =
      .ok ⟨2, none, some 60, some 7200, none⟩ := by
  have h := (C7_backward_scan ⟨10, 8, 90, 10, 10⟩ 0
    ⟨0, [(3600, ⟨3600, 3600, 0, 0, 79/10⟩), (7200, ⟨7200, 3600, 0, 0, 10⟩)]⟩
    [⟨3600, 3600, 0, 0, 79/10⟩] 7200 none
    (by
      intro e he
      rcases List.mem_cons.mp he with h1 | h2
      · subst h1; norm_num
      · simp only [List.mem_singleton] at h2
        subst h2; norm_num)
    (by norm_num [DailyForecast.p90_excess_kwh, ForecastPeriod.p90_excess_kwh,
      pymax, ForecastPeriod.hour_fraction, oneHourSeconds])
    (by norm_num)
    (by norm_num [sortedPeriods, List.insertionSort, List.orderedInsert,
      periodEndLE, scanExcess, findCleanBackup, ForecastPeriod.p90_excess_kwh,
      pymax, ForecastPeriod.hour_fraction, oneHourSeconds])).1
    (by norm_num [totalAvail, ForecastPeriod.p90_avail_kwh, pymax,
      ForecastPeriod.hour_fraction, oneHourSeconds, kwhToDischarge,
      targetDischargePct, excessPct, DailyForecast.p90_excess_kwh,
      ForecastPeriod.p90_excess_kwh])
  rw [h]
  norm_num [DailyForecast.p90_excess_kwh, ForecastPeriod.p90_excess_kwh,
    pymax, ForecastPeriod.hour_fraction, oneHourSeconds, targetDischargePct,
    excessPct]

/-- C5, counterexample: with min_reserve 100 above target_max 90 the planner
returns a discharge target of 100, outside [min_reserve, target_max] (that
closed interval is empty), refuting the unconditional interval claim. -/
theorem C5_counterexample :
    get_charge_plan ⟨10, 1, 90, 100, 10⟩ 0
        ⟨0, [(3600, ⟨3600, 3600, 0, 0, 2⟩)]⟩ =
      .ok ⟨1, none, some 100, some 3600, none⟩ ∧ ¬ ((100 : ℚ) ≤ 90) := by
  refine ⟨?_, by norm_num⟩
  norm_num [get_charge_plan, DailyForecast.p90_excess_kwh,
    ForecastPeriod.p90_excess_kwh, ForecastPeriod.p90_avail_kwh, pymax,
    ForecastPeriod.hour_fraction, oneHourSeconds, sortedPeriods,
    List.insertionSort, List.orderedInsert, periodEndLE, scanExcess,
    findCleanBackup, dischargeScan, targetDischargePct, excessPct,
    kwhToDischarge]

/-- C5, amended: whenever the total p90 excess is nonzero the planner's
discharge target equals max(min_reserve, target_max - excess_pct -
charge_buffer); it lies within [min_reserve_pct, target_max_pct] provided the
configuration satisfies min_reserve ≤ target_max and 0 ≤ charge_buffer with a
positive battery capacity, and every duration is nonnegative. -/
theorem C5_target_discharge_bounds (cfg : Config) (now : ℚ)
    (df : DailyForecast)
    (hmr : cfg.min_reserve ≤ cfg.target_max) (hcb : 0 ≤ cfg.charge_buffer)
    (hcap : 0 < cfg.battery_capacity)
    (hdur : ∀ e ∈ df.periods, 0 ≤ e.2.period)
    (hne : df.p90_excess_kwh cfg.inverter_capacity_dc ≠ 0) :
    ∃ r, get_charge_plan cfg now df = .ok r ∧
      r.discharge_target = some (targetDischargePct cfg
        (df.p90_excess_kwh cfg.inverter_capacity_dc)) ∧
      cfg.min_reserve ≤
        targetDischargePct cfg (df.p90_excess_kwh cfg.inverter_capacity_dc) ∧
      targetDischargePct cfg (df.p90_excess_kwh cfg.inverter_capacity_dc) ≤
        cfg.target_max := by
  have hex : 0 ≤ df.p90_excess_kwh cfg.inverter_capacity_dc :=
    daily_excess_nonneg df _ hdur
  have hb1 : cfg.min_reserve ≤
      targetDischargePct cfg (df.p90_excess_kwh cfg.inverter_capacity_dc) := by
    rw [targetDischargePct, pymax_eq_max]
    exact le_max_left _ _
  have hb2 : targetDischargePct cfg
      (df.p90_excess_kwh cfg.inverter_capacity_dc) ≤ cfg.target_max := by
    rw [targetDischargePct, pymax_eq_max]
    apply max_le hmr
    have hpct : 0 ≤ excessPct cfg (df.p90_excess_kwh cfg.inverter_capacity_dc) := by
      rw [excessPct]
      exact mul_nonneg (div_nonneg hex hcap.le) (by norm_num)
    linarith
  cases hscan : scanExcess cfg.inverter_capacity_dc (sortedPeriods df) with
  | none =>
    exact ⟨_, get_charge_plan_scan_none cfg now df hne (ne_of_gt hcap) hscan,
      rfl, hb1, hb2⟩
  | some x =>
    obtain ⟨pre, rt, cb⟩ := x
    exact ⟨_, get_charge_plan_scan_some cfg now df pre rt cb hne
      (ne_of_gt hcap) hscan, rfl, hb1, hb2⟩

/-- C5, witness: the amended bounds at a concrete aggregate and the default
configuration values. -/
theorem C5_witness :
    ∃ r, get_charge_plan ⟨10, 8, 90, 10, 10⟩ 0
        ⟨0, [(3600, ⟨3600, 3600, 0, 0, 0⟩), (7200, ⟨7200, 3600, 0, 0, 10⟩)]⟩ =
        .ok r ∧
      r.discharge_target = some (targetDischargePct ⟨10, 8, 90, 10, 10⟩
        (DailyForecast.p90_excess_kwh
          ⟨0, [(3600, ⟨3600, 3600, 0, 0, 0⟩), (7200, ⟨7200, 3600, 0, 0, 10⟩)]⟩
          8)) ∧
      (10 : ℚ) ≤ targetDischargePct ⟨10, 8, 90, 10, 10⟩
        (DailyForecast.p90_excess_kwh
          ⟨0, [(3600, ⟨3600, 3600, 0, 0, 0⟩), (7200, ⟨7200, 3600, 0, 0, 10⟩)]⟩
          8) ∧
      targetDischargePct ⟨10, 8, 90, 10, 10⟩
        (DailyForecast.p90_excess_kwh
          ⟨0, [(3600, ⟨3600, 3600, 0, 0, 0⟩), (7200, ⟨7200, 3600, 0, 0, 10⟩)]⟩
          8) ≤ (90 : ℚ) :=
  C5_target_discharge_bounds ⟨10, 8, 90, 10, 10⟩ 0 _ (by norm_num)
    (by norm_num) (by norm_num)
    (by
      intro e he
      rcases List.mem_cons.mp he with h1 | h2
      · subst h1; norm_num
      · simp only [List.mem_singleton] at h2
        subst h2; norm_num)
    (by norm_num [DailyForecast.p90_excess_kwh, ForecastPeriod.p90_excess_kwh,
      pymax, ForecastPeriod.hour_fraction, oneHourSeconds])

/-- C8, counterexample: a zero battery capacity with nonzero excess hits the
division and the planner raises (Python ZeroDivisionError), refuting the
claim that no configuration combination raises. -/
theorem C8_counterexample :
    get_charge_plan ⟨0, 1, 90, 10, 10⟩ 0
        ⟨0, [(3600, ⟨3600, 3600, 0, 0, 2⟩)]⟩ =
      .error .divisionByZero := by
  norm_num [get_charge_plan, DailyForecast.p90_excess_kwh,
    ForecastPeriod.p90_excess_kwh, pymax, ForecastPeriod.hour_fraction,
    oneHourSeconds]

/-- C8, amended: for every daily aggregate and every configuration whose
battery capacity is nonzero the planner terminates normally with some plan
result (zero-excess, full, or partial); the only reachable arithmetic error
is the division by a zero battery capacity. -/
theorem C8_planner_total (cfg : Config) (now : ℚ) (df : DailyForecast)
    (hcap : cfg.battery_capacity ≠ 0) :
    ∃ r, get_charge_plan cfg now df = .ok r := by
  by_cases hz : df.p90_excess_kwh cfg.inverter_capacity_dc = 0
  · refine ⟨⟨0, none, none, none, none⟩, ?_⟩
    simp only [get_charge_plan]
    rw [if_pos hz]
  · cases hscan : scanExcess cfg.inverter_capacity_dc (sortedPeriods df) with
    | none => exact ⟨_, get_charge_plan_scan_none cfg now df hz hcap hscan⟩
    | some x =>
      obtain ⟨pre, rt, cb⟩ := x
      exact ⟨_, get_charge_plan_scan_some cfg now df pre rt cb hz hcap hscan⟩

/-- C8, witness: the planner terminates normally at a concrete aggregate. -/
theorem C8_witness :
    ∃ r, get_charge_plan ⟨10, 8, 90, 10, 10⟩ 0
        ⟨0, [(3600, ⟨3600, 3600, 0, 0, 10⟩)]⟩ = .ok r :=
  C8_planner_total ⟨10, 8, 90, 10, 10⟩ 0 _ (by norm_num)

/-- C10: with nonzero total p90 excess (and nonnegative durations, so that
every per-period excess term is nonnegative) the forward scan necessarily
finds a first excess period — the safeguard branch is unreachable — and any
plan produced has target_reserve_time set. -/
theorem C10_reserve_time_set (cfg : Config) (now : ℚ) (df : DailyForecast)
    (r : ForecastResult)
    (hdur : ∀ e ∈ df.periods, 0 ≤ e.2.period)
    (hne : df.p90_excess_kwh cfg.inverter_capacity_dc ≠ 0)
    (h : get_charge_plan cfg now df = .ok r) :
    (scanExcess cfg.inverter_capacity_dc (sortedPeriods df)).isSome ∧
      r.target_reserve_time.isSome := by
  obtain ⟨fp, hfp, hpos⟩ := exists_pos_excess df _ hdur hne
  have hmem : fp ∈ sortedPeriods df := by
    rw [sortedPeriods]
    exact (List.mem_insertionSort periodEndLE).mpr hfp
  cases hscan : scanExcess cfg.inverter_capacity_dc (sortedPeriods df) with
  | none =>
    exact absurd hpos ((scanExcess_eq_none_iff _ _).mp hscan fp hmem)
  | some x =>
    obtain ⟨pre, rt, cb⟩ := x
    refine ⟨rfl, ?_⟩
    by_cases hcap : cfg.battery_capacity = 0
    · rw [get_charge_plan] at h
      simp only [] at h
      rw [if_neg hne, if_pos hcap] at h
      cases h
    · rw [get_charge_plan_scan_some cfg now df pre rt cb hne hcap hscan] at h
      injection h with h2
      rw [← h2]
      rfl

/-- C10, witness: at a concrete two-period aggregate with excess the scan
finds the block and the plan's target_reserve_time is present. -/
theorem C10_witness :
    (scanExcess 8 (sortedPeriods
        ⟨0, [(3600, ⟨3600, 3600, 0, 0, 0⟩),
             (7200, ⟨7200, 3600, 0, 0, 10⟩)]⟩)).isSome ∧
      (ForecastResult.mk 2 (some 100300) (some 60) (some 7200)
        none).target_reserve_time.isSome :=
  C10_reserve_time_set ⟨10, 8, 90, 10, 10⟩ 100000 _ _
    (by
      intro e he
      rcases List.mem_cons.mp he with h1 | h2
      · subst h1; norm_num
      · simp only [List.mem_singleton] at h2
        subst h2; norm_num)
    (by norm_num [DailyForecast.p90_excess_kwh, ForecastPeriod.p90_excess_kwh,
      pymax, ForecastPeriod.hour_fraction, oneHourSeconds])
    (by norm_num [get_charge_plan, DailyForecast.p90_excess_kwh,
      ForecastPeriod.p90_excess_kwh, ForecastPeriod.p90_avail_kwh, pymax,
      ForecastPeriod.hour_fraction, oneHourSeconds, sortedPeriods,
      List.insertionSort, List.orderedInsert, periodEndLE, scanExcess,
      findCleanBackup, dischargeScan, targetDischargePct, excessPct,
      kwhToDischarge])

/-- C2, counterexample: two sources sharing the key (end 0, duration 1800)
with estimates 1 and 2 merge once to 3; feeding the same content again adds
the entries once more (3 + 1 + 2 = 6), so merging twice is NOT the same as
merging once — the equality guard only recognises a re-fed entry equal to
the stored sum. -/
theorem C2_counterexample :
    merge_forecasts ([[⟨0, 1800, 0, 0, 1⟩], [⟨0, 1800, 0, 0, 2⟩]] ++
        [[⟨0, 1800, 0, 0, 1⟩], [⟨0, 1800, 0, 0, 2⟩]]) ≠
      merge_forecasts [[⟨0, 1800, 0, 0, 1⟩], [⟨0, 1800, 0, 0, 2⟩]] := by
  have h1 : merge_forecasts [[⟨0, 1800, 0, 0, 1⟩], [⟨0, 1800, 0, 0, 2⟩]] =
      .ok [(0, ⟨0, [(0, ⟨0, 1800, 0, 0, 3⟩)]⟩)] := by
    norm_num [merge_forecasts, foldEntries, mergeEntry,
      DailyForecast.insertPeriod, ForecastPeriod.merge, assocFind_nil,
      assocFind_cons, assocUpdate, dateOf, Except.map, Int.floor_zero,
      ForecastPeriod.mk.injEq]
  have h2 : merge_forecasts ([[⟨0, 1800, 0, 0, 1⟩], [⟨0, 1800, 0, 0, 2⟩]] ++
      [[⟨0, 1800, 0, 0, 1⟩], [⟨0, 1800, 0, 0, 2⟩]]) =
      .ok [(0, ⟨0, [(0, ⟨0, 1800, 0, 0, 6⟩)]⟩)] := by
    norm_num [merge_forecasts, foldEntries, mergeEntry,
      DailyForecast.insertPeriod, ForecastPeriod.merge, assocFind_nil,
      assocFind_cons, assocUpdate, dateOf, Except.map, Int.floor_zero,
      ForecastPeriod.mk.injEq]
  rw [h1, h2]
  norm_num [ForecastPeriod.mk.injEq, DailyForecast.mk.injEq,
    Prod.mk.injEq]

/-- C2, amended: merging identical content twice equals merging once when no
two entries (across all sources) share a period end key; when two sources
contribute different estimates to one key, the re-merge adds them again
(double counting), because the guard only skips a re-fed entry that is
field-wise equal to the stored record. -/
theorem C2_merge_twice_of_distinct (forecasts : List (List ForecastPeriod))
    (h : forecasts.flatten.Pairwise
      (fun a b => a.period_end ≠ b.period_end)) :
    merge_forecasts (forecasts ++ forecasts) = merge_forecasts forecasts := by
  obtain ⟨m2, hm2, hwf2, hcont2, _⟩ := foldEntries_fresh forecasts.flatten []
    WFMap_nil h (fun fp _ => rfl)
  simp only [merge_forecasts]
  rw [List.flatten_append, foldEntries_append, hm2]
  exact foldEntries_noop forecasts.flatten m2 hwf2 hcont2

/-- C2, witness: re-merging two sources with distinct keys changes nothing. -/
theorem C2_witness :
    merge_forecasts ([[⟨0, 1800, 0, 0, 1⟩], [⟨1800, 1800, 0, 0, 2⟩]] ++
        [[⟨0, 1800, 0, 0, 1⟩], [⟨1800, 1800, 0, 0, 2⟩]]) =
      merge_forecasts [[⟨0, 1800, 0, 0, 1⟩], [⟨1800, 1800, 0, 0, 2⟩]] :=
  C2_merge_twice_of_distinct _ (by
    norm_num [List.flatten_cons, List.flatten_nil, List.pairwise_cons])

/-- C9: in every mapping produced by the merger, every period record of every
daily aggregate has a period end whose local calendar date equals the
aggregate's date. -/
theorem C9_dates_consistent (forecasts : List (List ForecastPeriod))
    (m : List (ℤ × DailyForecast))
    (h : merge_forecasts forecasts = .ok m) :
    ∀ e ∈ m, ∀ p ∈ e.2.periods, dateOf p.2.period_end = e.2.period_date := by
  have hwf : WFMap m := foldEntries_wf forecasts.flatten [] m WFMap_nil h
  intro e he p hp
  obtain ⟨hkey, hkdate⟩ := ((hwf.2 e he).2).2 p hp
  rw [hkey]
  exact hkdate

/-- C9, witness: two entries on different days land in the aggregates of
their own dates. -/
theorem C9_witness :
    dateOf (ForecastPeriod.period_end ⟨86400, 1800, 0, 0, 2⟩) =
      DailyForecast.period_date ⟨1, [(86400, ⟨86400, 1800, 0, 0, 2⟩)]⟩ :=
  C9_dates_consistent [[⟨0, 1800, 0, 0, 1⟩, ⟨86400, 1800, 0, 0, 2⟩]]
    [(0, ⟨0, [(0, ⟨0, 1800, 0, 0, 1⟩)]⟩),
     (1, ⟨1, [(86400, ⟨86400, 1800, 0, 0, 2⟩)]⟩)]
    (by norm_num [merge_forecasts, List.flatten_cons, List.flatten_nil,
      foldEntries, mergeEntry, DailyForecast.insertPeriod,
      ForecastPeriod.merge, assocFind_nil, assocFind_cons, dateOf,
      Except.map, Int.floor_zero, Int.floor_one])
    (1, ⟨1, [(86400, ⟨86400, 1800, 0, 0, 2⟩)]⟩) (by simp)
    (86400, ⟨86400, 1800, 0, 0, 2⟩) (by simp)

end PwrCell
